import Mathlib

/-!
Verification of the SBOM Risk Analyzer core pipeline.

The development shallowly embeds the discovery-and-assessment pipeline:
JavaScript strings are modelled as `List Char` (named `JSString`), the
`Map` used for dependency deduplication as an insertion-ordered
association list, fallible operations as `Except`/`Option`, and the
path-addressed dependency tree as a nested inductive type.  External
collaborators (the code-hosting API and the reasoning/extraction
service) are passed in as oracle functions, matching the spec's
"pluggable capability" boundary.
-/

/-- JavaScript strings are modelled as lists of characters. -/
abbrev JSString := List Char

/-- Whitespace test used by the regexes in the source.  Models the core
of the JavaScript character class of whitespace for the ASCII range
(space, newline, tab, carriage return). -/
def isJsWhitespace (c : Char) : Bool :=
  c = ' ' || c = '\n' || c = '\t' || c = '\r'

/-- Models JavaScript String.prototype.toLowerCase for ASCII input by
lowering every character. -/
def jsToLower (s : JSString) : JSString :=
  s.map Char.toLower

/-- Models JavaScript String.prototype.trim (on the ASCII whitespace
range): removes leading and trailing whitespace.  This function is used
only to state the spec's "trimmed" dedup key; the source never trims. -/
def jsTrim (s : JSString) : JSString :=
  ((s.dropWhile isJsWhitespace).reverse.dropWhile isJsWhitespace).reverse

/-- Decimal digit characters of a natural number, most significant
first; models the JavaScript number-to-string conversion used by the
template literals that build tree paths. -/
def natDigits (n : ℕ) : JSString :=
  if n = 0 then ['0']
  else (Nat.digits 10 n).reverse.map (fun d => Char.ofNat (48 + d))

/-- Value of a big-endian list of decimal digit characters. -/
def digitsVal (s : JSString) : ℕ :=
  s.foldl (fun a c => 10 * a + (c.toNat - 48)) 0

/-- Models the JavaScript Number conversion as applied to the path
components produced by this application: the empty string converts to
0, a string of decimal digits to its value, and anything else to NaN
(represented by none). -/
def jsToNumber (s : JSString) : Option ℕ :=
  if s = [] then some 0
  else if s.all Char.isDigit then some (digitsVal s)
  else none

/-- Models String.prototype.split with the single-character separator
char; splitting the empty string yields one empty component, matching
JavaScript. -/
def splitDash : JSString → List JSString
  | [] => [[]]
  | c :: cs =>
    match splitDash cs with
    | [] => if c = '-' then [[], []] else [[c]]
    | h :: t => if c = '-' then [] :: h :: t else (c :: h) :: t

/-- Models a substring-containment regex test: does the pattern occur
contiguously inside the string. -/
def jsIncludes (pat : JSString) : JSString → Bool
  | [] => pat.isEmpty
  | s@(_ :: rest) => pat.isPrefixOf s || jsIncludes pat rest

/-- Models String.prototype.substring(0, k). -/
def jsSubstring (s : JSString) (k : ℕ) : JSString :=
  s.take k

/-- Opening code-fence marker matched by the first replace in
parseGeminiJson. -/
def fenceOpen : JSString := "```json".toList

/-- Closing code-fence marker matched by the second replace in
parseGeminiJson. -/
def fenceClose : JSString := "```".toList

/-- Embeds the first replace of parseGeminiJson:
text.replace of the anchored pattern of three backticks, the word json
and trailing whitespace, at the start of the string. -/
def stripLeadingFence (s : JSString) : JSString :=
  if fenceOpen.isPrefixOf s then (s.drop 7).dropWhile isJsWhitespace else s

/-- Embeds the second replace of parseGeminiJson: removes optional
whitespace followed by three backticks anchored at the end of the
string. -/
def stripTrailingFence (s : JSString) : JSString :=
  if fenceClose.isSuffixOf s then
    ((s.reverse.drop 3).dropWhile isJsWhitespace).reverse
  else s

/-- Embeds the cleanedText computation of parseGeminiJson in
src/geminiService.ts: both replaces, applied in source order. -/
def cleanGeminiText (s : JSString) : JSString :=
  stripTrailingFence (stripLeadingFence s)

/-- Embeds parseGeminiJson from src/geminiService.ts.  JSON.parse
together with the schema cast is the pluggable structural parse,
passed as the oracle parse; returning none models the catch branch
that logs and returns null. -/
def parseGeminiJson {T : Type} (parse : JSString → Option T) (text : JSString) : Option T :=
  parse (cleanGeminiText text)

/-- Risk levels, from types.ts. -/
inductive RiskLevel where
  | Low | Medium | High | Critical
deriving DecidableEq

/-- CveInfo from types.ts. -/
structure CveInfo where
  id : JSString
  summary : JSString
deriving DecidableEq

/-- CweFinding from types.ts. -/
structure CweFinding where
  cweId : JSString
  cweTitle : JSString
  riskSummary : JSString
  cves : List CveInfo
deriving DecidableEq

/-- LicenseInfo from types.ts. -/
structure LicenseInfo where
  spdxId : JSString
  complianceSummary : JSString
deriving DecidableEq

/-- RiskAssessment from types.ts. -/
structure RiskAssessment where
  maintainerAnalysis : JSString
  codeSecurityAnalysis : JSString
  licenseAnalysis : LicenseInfo
  vulnerabilityAnalysis : List CweFinding
  riskLevel : RiskLevel
  riskSummary : JSString
deriving DecidableEq

/-- DiscoveredDependency from types.ts. -/
structure DiscoveredDependency where
  name : JSString
  url : JSString
  discoverySource : JSString
deriving DecidableEq

instance : Inhabited DiscoveredDependency := ⟨⟨[], [], []⟩⟩

/-- LicenseInfo paired with toolchain info and the dependency list:
InitialDiscoveryResult from types.ts. -/
structure InitialDiscoveryResult where
  dependencies : List DiscoveredDependency
  toolchainInfo : JSString
  rootLicenseInfo : Option LicenseInfo
deriving DecidableEq

/-- Fallback assessment returned by analyzeDependency in
src/geminiService.ts when the assessment response fails to parse. -/
def fallbackAssessment : RiskAssessment where
  maintainerAnalysis := "Could not analyze maintainers.".toList
  codeSecurityAnalysis := "Could not perform code security analysis.".toList
  licenseAnalysis :=
    { spdxId := "Unknown".toList
      complianceSummary := "Failed to perform AI analysis on the license.".toList }
  vulnerabilityAnalysis := []
  riskLevel := .Critical
  riskSummary := "Failed to perform AI analysis. Treat with extreme caution.".toList

/-- Embeds analyzeDependency from src/geminiService.ts.  The reasoning
service's raw response text and the schema parse are oracles; name,
URL and compilation date parameterize the prompt and are irrelevant to
the fallback logic.  The function is total: a parse failure yields the
fallback assessment, never an error. -/
def analyzeDependency (_dependencyName _dependencyUrl _compilationDate : JSString)
    (responseText : JSString) (parse : JSString → Option RiskAssessment) : RiskAssessment :=
  match parseGeminiJson parse responseText with
  | none => fallbackAssessment
  | some assessment => assessment

/-- Insertion-ordered association list modelling the JavaScript Map of
discovered dependencies keyed by lower-cased name. -/
abbrev DepMap := List (JSString × DiscoveredDependency)

/-- Models Map.prototype.has with string keys. -/
def mapHas (m : DepMap) (k : JSString) : Bool :=
  m.any (fun p => p.1 == k)

/-- Models Map.prototype.set with string keys: replaces the value of an
existing key in place, otherwise appends, preserving insertion order. -/
def mapSet (m : DepMap) (k : JSString) (v : DiscoveredDependency) : DepMap :=
  if mapHas m k then m.map (fun p => if p.1 == k then (k, v) else p)
  else m ++ [(k, v)]

/-- Models Array.from(map.values()). -/
def mapValues (m : DepMap) : List DiscoveredDependency :=
  m.map (fun p => p.2)

/-- Embeds addDependencies from discoverDependencies in
src/geminiService.ts: for each record, key is the lower-cased name and
the record is inserted only when the key is absent and the name is
truthy (non-empty). -/
def addDependencies (m : DepMap) (deps : List DiscoveredDependency) : DepMap :=
  deps.foldl
    (fun acc dep =>
      let key := jsToLower dep.name
      if !mapHas acc key && !dep.name.isEmpty then mapSet acc key dep else acc)
    m

/-- Structural worker for the batch slicing: the fuel bounds the
number of loop iterations and is immaterial once it reaches the list
length. -/
def sourceBatchesGo : ℕ → List JSString → List (List JSString)
  | _, [] => []
  | 0, _ :: _ => []
  | fuel + 1, x :: xs => (x :: xs).take 15 :: sourceBatchesGo fuel ((x :: xs).drop 15)

/-- Embeds the batch slicing of the phase-3 loop of
discoverDependencies: the loop with index i stepping by BATCH_SIZE and
body slice(i, i + BATCH_SIZE) produces the consecutive chunks of size
15. -/
def sourceBatches (l : List JSString) : List (List JSString) :=
  sourceBatchesGo l.length l

/-- Failure classes raised by throttledFetch and getFileContent in
src/githubService.ts. -/
inductive FetchError where
  | rateLimited (waitMinutes : ℕ)
  | notFound (url : JSString)
  | requestFailed (status : ℕ) (url : JSString)
  | decodeFailed (message : JSString)
  | invalidUrl
deriving DecidableEq

/-- Failure thrown by the reasoning service's generateContent call
itself (as opposed to an unparsable response). -/
inductive GenError where
  | serviceError (message : JSString)
deriving DecidableEq

/-- Error propagated out of discoverDependencies: its try/catch
re-throws both fetcher errors and reasoning-service errors. -/
inductive DiscoveryError where
  | fetch (e : FetchError)
  | gen (e : GenError)
deriving DecidableEq

/-- Tests a path against the source-file extension regex of
discoverDependencies (anchored at the end, case-insensitive). -/
def isSourcePath (p : JSString) : Bool :=
  [".h", ".hpp", ".c", ".cpp", ".ino"].any
    (fun ext => ext.toList.isSuffixOf (jsToLower p))

/-- Tests a path against the build-manifest regex of
discoverDependencies (substring match, case-insensitive). -/
def isManifestPath (p : JSString) : Bool :=
  ["platformio.ini", "library.json", "makefile", "cmakelists.txt"].any
    (fun s => jsIncludes s.toList (jsToLower p))

/-- Tests a path against the root-license regex of
discoverDependencies (anchored at the start, case-insensitive). -/
def isLicensePath (p : JSString) : Bool :=
  "license".toList.isPrefixOf (jsToLower p)

/-- Output shape of the phase-2 manifest extraction call. -/
structure ManifestOut where
  toolchainInfo : JSString
  dependencies : List (JSString × JSString)
deriving DecidableEq

/-- Oracles for discoverDependencies: the code-hosting API (file tree
and file contents), the reasoning service's raw responses per call
kind, and the structural parses per schema.  Success and failure of
each external call are the oracle's choice, so every claim about the
pipeline quantifies over all collaborator behaviours. -/
structure DiscoveryEnv where
  getRepoFileTree : Except FetchError (List JSString)
  getFileContent : JSString → Except FetchError JSString
  manifestGen : List (JSString × JSString) → Except GenError JSString
  sourceGen : List (JSString × JSString) → List JSString → Except GenError JSString
  licenseGen : JSString → Except GenError JSString
  parseManifest : JSString → Option ManifestOut
  parseDeps : JSString → Option (List (JSString × JSString))
  parseLicense : JSString → Option LicenseInfo

/-- Fetches the contents of a list of paths; the Promise.all of
getFileContent calls rejects with the first failure and otherwise
yields the path-content pairs in order. -/
def fetchContents (env : DiscoveryEnv) : List JSString →
    Except FetchError (List (JSString × JSString))
  | [] => .ok []
  | p :: rest =>
    match env.getFileContent p with
    | .error e => .error e
    | .ok c =>
      match fetchContents env rest with
      | .error e => .error e
      | .ok rs => .ok ((p, c) :: rs)

/-- Embeds analyzeSourceCodeBatch from src/geminiService.ts: truncates
each file's content to 5000 characters for the prompt, issues one
extraction call, and returns the parsed dependencies tagged with the
Source Code Scan provenance; its try/catch converts any service error
into an empty result, and a parse failure also yields an empty
result. -/
def analyzeSourceCodeBatch (env : DiscoveryEnv)
    (fileContents : List (JSString × JSString)) (existingDeps : List JSString) :
    List DiscoveredDependency :=
  if fileContents.isEmpty then []
  else
    match env.sourceGen (fileContents.map (fun pc => (pc.1, jsSubstring pc.2 5000))) existingDeps with
    | .error _ => []
    | .ok text =>
      match parseGeminiJson env.parseDeps text with
      | none => []
      | some ds => ds.map (fun d => ⟨d.1, d.2, "Source Code Scan".toList⟩)

/-- Embeds the phase-3 loop of discoverDependencies: batches processed
strictly in order; each batch's file contents are fetched (a fetch
failure propagates out of the loop), then one extraction call is made
with the keys discovered so far, and its findings are merged. -/
def scanBatches (env : DiscoveryEnv) : List (List JSString) → DepMap → Except DiscoveryError DepMap
  | [], m => .ok m
  | batch :: rest, m =>
    match fetchContents env batch with
    | .error e => .error (.fetch e)
    | .ok contents =>
      scanBatches env rest (addDependencies m (analyzeSourceCodeBatch env contents (m.map (fun p => p.1))))

/-- Embeds phase 2 of discoverDependencies: manifest fetch, one
extraction call, parse; a parse failure leaves the toolchain default
and adds nothing, while fetch and service errors propagate. -/
def manifestPhase (env : DiscoveryEnv) (manifestPaths : List JSString) :
    Except DiscoveryError (JSString × DepMap) :=
  if manifestPaths.isEmpty then .ok ("Not determined.".toList, [])
  else
    match fetchContents env manifestPaths with
    | .error e => .error (.fetch e)
    | .ok contents =>
      match env.manifestGen contents with
      | .error e => .error (.gen e)
      | .ok text =>
        match parseGeminiJson env.parseManifest text with
        | none => .ok ("Not determined.".toList, [])
        | some r =>
          .ok (r.toolchainInfo,
            addDependencies []
              (r.dependencies.map (fun d => ⟨d.1, d.2, "Build Manifest".toList⟩)))

/-- Embeds phase 4 of discoverDependencies: license fetch, one
extraction call on a 5000-character prefix, parse; a parse failure
leaves the license absent, while fetch and service errors
propagate. -/
def licensePhase (env : DiscoveryEnv) (licenseFile : Option JSString) :
    Except DiscoveryError (Option LicenseInfo) :=
  match licenseFile with
  | none => .ok none
  | some path =>
    match env.getFileContent path with
    | .error e => .error (.fetch e)
    | .ok content =>
      match env.licenseGen (jsSubstring content 5000) with
      | .error e => .error (.gen e)
      | .ok text => .ok (parseGeminiJson env.parseLicense text)

/-- Embeds discoverDependencies from src/geminiService.ts: phase 1
lists and partitions the file tree (a failure here is fatal), phase 2
analyzes build manifests, phase 3 scans source files in batches of 15,
phase 4 analyzes the root license; the outer try/catch re-throws every
error raised inside the phases. -/
def discoverDependencies (env : DiscoveryEnv) : Except DiscoveryError InitialDiscoveryResult :=
  match env.getRepoFileTree with
  | .error e => .error (.fetch e)
  | .ok fileTree =>
    match manifestPhase env (fileTree.filter isManifestPath) with
    | .error e => .error e
    | .ok (toolchainInfo, m1) =>
      match scanBatches env (sourceBatches (fileTree.filter isSourcePath)) m1 with
      | .error e => .error e
      | .ok m2 =>
        match licensePhase env (fileTree.find? isLicensePath) with
        | .error e => .error e
        | .ok rootLicenseInfo =>
          .ok ⟨mapValues m2, toolchainInfo, rootLicenseInfo⟩

/-- DependencyNode from types.ts: the recursive dependency tree
entity. -/
inductive DependencyNode where
  | mk (name url discoverySource path : JSString) (level : ℕ)
       (isLoading isExpanded : Bool)
       (dependencies : List DependencyNode)
       (assessment : Option RiskAssessment)

/-- Name field of a node. -/
def DependencyNode.name : DependencyNode → JSString
  | .mk n _ _ _ _ _ _ _ _ => n

/-- Url field of a node. -/
def DependencyNode.url : DependencyNode → JSString
  | .mk _ u _ _ _ _ _ _ _ => u

/-- DiscoverySource field of a node. -/
def DependencyNode.discoverySource : DependencyNode → JSString
  | .mk _ _ d _ _ _ _ _ _ => d

/-- Path field of a node. -/
def DependencyNode.path : DependencyNode → JSString
  | .mk _ _ _ p _ _ _ _ _ => p

/-- Level field of a node. -/
def DependencyNode.level : DependencyNode → ℕ
  | .mk _ _ _ _ l _ _ _ _ => l

/-- IsLoading field of a node. -/
def DependencyNode.isLoading : DependencyNode → Bool
  | .mk _ _ _ _ _ b _ _ _ => b

/-- IsExpanded field of a node. -/
def DependencyNode.isExpanded : DependencyNode → Bool
  | .mk _ _ _ _ _ _ b _ _ => b

/-- Dependencies (children) field of a node. -/
def DependencyNode.dependencies : DependencyNode → List DependencyNode
  | .mk _ _ _ _ _ _ _ ds _ => ds

/-- Assessment field of a node. -/
def DependencyNode.assessment : DependencyNode → Option RiskAssessment
  | .mk _ _ _ _ _ _ _ _ a => a

/-- Spread copy of a node with a replaced child list, as performed at
each level of the updateNodeByPath walk. -/
def DependencyNode.withDependencies : DependencyNode → List DependencyNode → DependencyNode
  | .mk n u d p l ld ex _ a, ds => .mk n u d p l ld ex ds a

/-- Core of updateNodeByPath from src/App.tsx, over the already split
and numerically converted path parts (none models NaN).  The
JavaScript loop shallow-copies and descends for every non-terminal
part; reading the dependencies field of an out-of-range (undefined)
element throws, modelled by none.  At the terminal part the update is
guarded, so a missing terminal node leaves the tree unchanged. -/
def updateNodeCore (updater : DependencyNode → DependencyNode) :
    List (Option ℕ) → List DependencyNode → Option (List DependencyNode)
  | [], nodes => some nodes
  | [part], nodes =>
    some (match part with
      | none => nodes
      | some i =>
        if h : i < nodes.length then nodes.set i (updater nodes[i]) else nodes)
  | part :: p2 :: rest, nodes =>
    match part with
    | none => none
    | some i =>
      if h : i < nodes.length then
        match updateNodeCore updater (p2 :: rest) nodes[i].dependencies with
        | none => none
        | some newChildren =>
          some (nodes.set i (nodes[i].withDependencies newChildren))
      else none

/-- Embeds updateNodeByPath from src/App.tsx: splits the path on
dashes, converts each component with Number, and walks the tree;
none models a thrown TypeError. -/
def updateNodeByPath (nodes : List DependencyNode) (path : JSString)
    (updater : DependencyNode → DependencyNode) : Option (List DependencyNode) :=
  updateNodeCore updater ((splitDash path).map jsToNumber) nodes

/-- Subtree lookup by a sequence of sibling indices; the root forest
itself is not addressable (the empty sequence resolves to nothing). -/
def getNode? : List ℕ → List DependencyNode → Option DependencyNode
  | [], _ => none
  | [i], nodes => nodes[i]?
  | i :: j :: rest, nodes =>
    match nodes[i]? with
    | none => none
    | some n => getNode? (j :: rest) n.dependencies

/-- Dash-joined decimal rendering of an index sequence; this is the
path string the application assigns at construction to the node at
that position. -/
def renderPath : List ℕ → JSString
  | [] => []
  | [i] => natDigits i
  | i :: j :: rest => natDigits i ++ '-' :: renderPath (j :: rest)

/-- Children constructed by handleInitialDiscover and
handleDiscoverChildren in src/App.tsx: dependencies.map of a spread of
the discovered record with path parentPath dash index, level
parentLevel plus one, cleared flags and no children.  The index
argument tracks the map callback's index. -/
def mkChildren (parentPath : JSString) (parentLevel : ℕ) :
    ℕ → List DiscoveredDependency → List DependencyNode
  | _, [] => []
  | i, d :: rest =>
    .mk d.name d.url d.discoverySource (parentPath ++ '-' :: natDigits i) (parentLevel + 1)
      false false [] none :: mkChildren parentPath parentLevel (i + 1) rest

/-- Top-level tree built by handleInitialDiscover in src/App.tsx: one
root node with path the string 0 and level 0, whose children are the
discovery result's records at paths 0 dash index, level 1. -/
def initialTree (repoName repoUrl : JSString) (deps : List DiscoveredDependency) :
    List DependencyNode :=
  [.mk repoName repoUrl "Root Repository".toList (natDigits 0) 0 false true
    (mkChildren (natDigits 0) 0 0 deps) none]

/-- Updater of handleToggleExpand in src/App.tsx. -/
def toggleExpandUpdater (n : DependencyNode) : DependencyNode :=
  match n with
  | .mk nm u d p l ld ex ds a => .mk nm u d p l ld (!ex) ds a

/-- Updater applied by handleDiscoverChildren and handleAnalyzeNode
when a request starts or fails: sets the loading flag (and, when
starting discovery, the expanded flag). -/
def setFlagsUpdater (loading : Bool) (expanded : Option Bool) (n : DependencyNode) : DependencyNode :=
  match n with
  | .mk nm u d p l _ ex ds a => .mk nm u d p l loading (expanded.getD ex) ds a

/-- Updater applied by handleDiscoverChildren on success: clears the
loading flag and installs the freshly constructed children. -/
def discoverFinishUpdater (children : List DependencyNode) (n : DependencyNode) : DependencyNode :=
  match n with
  | .mk nm u d p l _ ex _ a => .mk nm u d p l false ex children a

/-- Updater applied by handleAnalyzeNode on success: clears the
loading flag and stores the assessment. -/
def analyzeFinishUpdater (a : RiskAssessment) (n : DependencyNode) : DependencyNode :=
  match n with
  | .mk nm u d p l _ ex ds _ => .mk nm u d p l false ex ds (some a)

/-- Tree updates issued by the App callbacks, identified by the held
node's position; the held node's path and level are its
construction-time values, which the addressing invariant equates with
the rendered position and the depth. -/
inductive TreeOp where
  | toggleExpand (q : List ℕ)
  | startDiscover (q : List ℕ)
  | finishDiscover (q : List ℕ) (deps : List DiscoveredDependency)
  | startAnalyze (q : List ℕ)
  | finishAnalyze (q : List ℕ) (a : RiskAssessment)
  | failOp (q : List ℕ)

/-- Position of the node an operation addresses. -/
def TreeOp.pos : TreeOp → List ℕ
  | .toggleExpand q => q
  | .startDiscover q => q
  | .finishDiscover q _ => q
  | .startAnalyze q => q
  | .finishAnalyze q _ => q
  | .failOp q => q

/-- Applies one callback update through updateNodeByPath at the held
node's path string.  A thrown update (none) leaves the state
unchanged, matching a React state updater that raises. -/
def applyOp (tree : List DependencyNode) : TreeOp → List DependencyNode
  | .toggleExpand q =>
    (updateNodeByPath tree (renderPath q) toggleExpandUpdater).getD tree
  | .startDiscover q =>
    (updateNodeByPath tree (renderPath q) (setFlagsUpdater true (some true))).getD tree
  | .finishDiscover q deps =>
    (updateNodeByPath tree (renderPath q)
      (discoverFinishUpdater (mkChildren (renderPath q) (q.length - 1) 0 deps))).getD tree
  | .startAnalyze q =>
    (updateNodeByPath tree (renderPath q) (setFlagsUpdater true none)).getD tree
  | .finishAnalyze q a =>
    (updateNodeByPath tree (renderPath q) (analyzeFinishUpdater a)).getD tree
  | .failOp q =>
    (updateNodeByPath tree (renderPath q) (setFlagsUpdater false none)).getD tree

/-- Sequence of callback updates applied in order. -/
def applyOps (tree : List DependencyNode) (ops : List TreeOp) : List DependencyNode :=
  ops.foldl applyOp tree

/-- Addressing invariant below a position: every node reachable at
relative position q carries the path string rendered from the absolute
position and the level equal to the absolute depth minus one. -/
def wellAddressedFrom (pre : List ℕ) (nodes : List DependencyNode) : Prop :=
  ∀ q n, getNode? q nodes = some n →
    n.path = renderPath (pre ++ q) ∧ n.level = (pre ++ q).length - 1

/-- Addressing invariant of the whole tree. -/
def wellAddressed (nodes : List DependencyNode) : Prop :=
  wellAddressedFrom [] nodes

/-- State of the throttling interleaving model for throttledFetch in
src/githubService.ts: the wall clock, the shared lastRequestTime
watermark, the calls suspended in their delay (task id and timer due
time), and the outbound requests issued so far (task id and issuance
time, in issuance order). -/
structure ThrottleSim where
  time : ℕ
  lastRequestTime : ℕ
  waiting : List (ℕ × ℕ)
  issued : List (ℕ × ℕ)
deriving DecidableEq

/-- Event-loop events of the throttling model: the clock advances, a
throttledFetch call starts (running synchronously up to its first
suspension), or a suspended call's delay timer fires and the call
resumes. -/
inductive ThrottleEvent where
  | advanceTo (t : ℕ)
  | startCall (id : ℕ)
  | resumeCall (id : ℕ)

/-- One event of the throttling model.  startCall executes the
synchronous prefix of throttledFetch: it reads the watermark, and
either suspends in delay (when less than 300 ms have passed) or
atomically writes the watermark and issues the request.  resumeCall
executes the continuation after the delay: it writes the watermark and
issues, without re-checking -- exactly the read-modify-write that the
source splits across the suspension. -/
def throttleStep (s : ThrottleSim) : ThrottleEvent → ThrottleSim
  | .advanceTo t => if s.time ≤ t then { s with time := t } else s
  | .startCall id =>
    if s.time - s.lastRequestTime < 300 then
      { s with waiting := s.waiting ++ [(id, s.lastRequestTime + 300)] }
    else
      { s with lastRequestTime := s.time, issued := s.issued ++ [(id, s.time)] }
  | .resumeCall id =>
    match s.waiting.find? (fun p => p.1 == id) with
    | none => s
    | some (_, due) =>
      if due ≤ s.time then
        { s with
          waiting := s.waiting.filter (fun p => p.1 != id)
          lastRequestTime := s.time
          issued := s.issued ++ [(id, s.time)] }
      else s

/-- Runs a schedule of events from an initial state. -/
def runThrottle (s : ThrottleSim) (events : List ThrottleEvent) : ThrottleSim :=
  events.foldl throttleStep s

/-- Initial state of the throttling model: lastRequestTime starts at 0
as in the source. -/
def throttleInit : ThrottleSim :=
  { time := 0, lastRequestTime := 0, waiting := [], issued := [] }

/-- Spacing property the rate-limiter claims: consecutive issuance
times are at least 300 ms apart. -/
def wellSpaced (issued : List (ℕ × ℕ)) : Prop :=
  List.Chain' (fun a b => a.2 + 300 ≤ b.2) issued

/-- Concrete childless tree used to evaluate updateNodeByPath on a
stale path: a root whose children were removed (or never loaded). -/
def staleTestTree : List DependencyNode :=
  [.mk "m5stack/M5StampLC".toList "https://github.com/m5stack/M5StampLC".toList
    "Root Repository".toList ['0'] 0 false true [] none]

/-- Concrete event-loop schedule with two overlapping throttledFetch
calls: a request issues at 1000; calls 2 and 3 both start at 1100,
both read the same watermark, both suspend until 1300, and both issue
on resume. -/
def overlapSchedule : List ThrottleEvent :=
  [.advanceTo 1000, .startCall 1, .advanceTo 1100, .startCall 2, .startCall 3,
   .advanceTo 1300, .resumeCall 2, .resumeCall 3]

/-- Discovery environment whose repository has a single source file
and whose content fetch fails with a generic HTTP 500 -- neither a
rate-limit nor a not-found failure. -/
def http500Env : DiscoveryEnv where
  getRepoFileTree := .ok ["main.c".toList]
  getFileContent := fun _ => .error (.requestFailed 500 "https://api.github.com/x".toList)
  manifestGen := fun _ => .ok []
  sourceGen := fun _ _ => .ok []
  licenseGen := fun _ => .ok []
  parseManifest := fun _ => none
  parseDeps := fun _ => none
  parseLicense := fun _ => none

/-- Toy structural parse accepting exactly the two-character JSON text
of an empty object. -/
def toyJsonParse (s : JSString) : Option ℕ :=
  if s = "\x7b\x7d".toList then some 0 else none

/-- Discovery environment whose fetches all succeed (each file's
content is its own path) but whose source-scan extraction call always
throws; used to exercise the batch-degradation path. -/
def gracefulEnv : DiscoveryEnv where
  getRepoFileTree := .ok ["a.c".toList, "b.c".toList]
  getFileContent := fun p => .ok p
  manifestGen := fun _ => .ok []
  sourceGen := fun _ _ => .error (.serviceError "boom".toList)
  licenseGen := fun _ => .ok []
  parseManifest := fun _ => none
  parseDeps := fun _ => none
  parseLicense := fun _ => none


/-- Big-endian fold of a digit list equals the little-endian digit
value. -/
theorem foldl_reverse_ofDigits (ds : List ℕ) :
    ds.reverse.foldl (fun a d => 10 * a + d) 0 = Nat.ofDigits 10 ds := by
  induction ds with
  | nil => simp
  | cons d rest ih =>
    simp only [List.reverse_cons, List.foldl_append, ih, Nat.ofDigits_cons, List.foldl_cons,
      List.foldl_nil]
    ring

/-- Every character produced by natDigits is a decimal digit. -/
theorem natDigits_isDigit {n : ℕ} {c : Char} (hc : c ∈ natDigits n) : c.isDigit = true := by
  unfold natDigits at hc
  split at hc
  · simp at hc
    subst hc
    decide
  · simp only [List.mem_map, List.mem_reverse] at hc
    obtain ⟨d, hd, rfl⟩ := hc
    have hlt : d < 10 := Nat.digits_lt_base (by norm_num) hd
    interval_cases d <;> decide

/-- natDigits never produces a dash. -/
theorem natDigits_ne_dash {n : ℕ} {c : Char} (hc : c ∈ natDigits n) : c ≠ '-' := by
  have := natDigits_isDigit hc
  intro h
  subst h
  simp at this

/-- natDigits is never empty. -/
theorem natDigits_ne_nil (n : ℕ) : natDigits n ≠ [] := by
  unfold natDigits
  split
  · simp
  · simp only [ne_eq, List.map_eq_nil_iff, List.reverse_eq_nil_iff]
    intro h
    exact (by assumption : ¬ n = 0) (Nat.digits_eq_nil_iff_eq_zero.mp h)

/-- Reading back the decimal rendering recovers the number. -/
theorem digitsVal_natDigits (n : ℕ) : digitsVal (natDigits n) = n := by
  unfold natDigits digitsVal
  split
  · subst n
    decide
  · rw [List.foldl_map]
    have : ((Nat.digits 10 n).reverse).foldl (fun a d => 10 * a + ((Char.ofNat (48 + d)).toNat - 48)) 0
        = ((Nat.digits 10 n).reverse).foldl (fun a d => 10 * a + d) 0 := by
      apply List.foldl_ext
      intro a d hd
      have hlt : d < 10 := Nat.digits_lt_base (by norm_num) (List.mem_reverse.mp hd)
      congr 1
      interval_cases d <;> decide
    rw [this, foldl_reverse_ofDigits, Nat.ofDigits_digits]

/-- The Number conversion inverts the decimal rendering. -/
theorem jsToNumber_natDigits (n : ℕ) : jsToNumber (natDigits n) = some n := by
  unfold jsToNumber
  rw [if_neg (natDigits_ne_nil n), if_pos, digitsVal_natDigits]
  exact List.all_eq_true.mpr (fun c hc => natDigits_isDigit hc)

/-- splitDash never returns the empty list of components. -/
theorem splitDash_ne_nil (s : JSString) : splitDash s ≠ [] := by
  induction s with
  | nil => simp [splitDash]
  | cons c cs ih =>
    unfold splitDash
    rcases h : splitDash cs with _ | ⟨h', t⟩
    · exact absurd h ih
    · dsimp only
      split <;> simp

/-- Unfolding equation of splitDash on a cons cell, phrased through
the non-empty result of splitting the tail. -/
theorem splitDash_cons_eq (c : Char) (cs h' : JSString) (t : List JSString)
    (hs : splitDash cs = h' :: t) :
    splitDash (c :: cs) = if c = '-' then [] :: h' :: t else (c :: h') :: t := by
  unfold splitDash
  rw [hs]

/-- Splitting a dash-free component followed by a dash peels off the
component. -/
theorem splitDash_append (comp rest : JSString) (h : ∀ c ∈ comp, c ≠ '-') :
    splitDash (comp ++ '-' :: rest) = comp :: splitDash rest := by
  induction comp with
  | nil =>
    simp only [List.nil_append]
    rcases hs : splitDash rest with _ | ⟨h', t⟩
    · exact absurd hs (splitDash_ne_nil rest)
    · rw [splitDash_cons_eq '-' rest h' t hs]
      simp
  | cons c cs ih =>
    have hc : c ≠ '-' := h c (List.mem_cons_self c cs)
    have ih' := ih (fun x hx => h x (List.mem_cons_of_mem c hx))
    rw [List.cons_append, splitDash_cons_eq c (cs ++ '-' :: rest) cs (splitDash rest) ih']
    simp [hc]

/-- Splitting a dash-free non-empty string yields that single
component. -/
theorem splitDash_no_dash (s : JSString) (h : ∀ c ∈ s, c ≠ '-') : splitDash s = [s] := by
  induction s with
  | nil => rfl
  | cons c cs ih =>
    have hc : c ≠ '-' := h c (List.mem_cons_self c cs)
    have ih' := ih (fun x hx => h x (List.mem_cons_of_mem c hx))
    rw [splitDash_cons_eq c cs cs [] ih']
    simp [hc]

/-- Splitting and converting a rendered path recovers the index
sequence. -/
theorem parse_renderPath (q : List ℕ) (h : q ≠ []) :
    (splitDash (renderPath q)).map jsToNumber = q.map some := by
  induction q with
  | nil => exact absurd rfl h
  | cons i rest ih =>
    cases rest with
    | nil =>
      rw [renderPath, splitDash_no_dash _ (fun c hc => natDigits_ne_dash hc)]
      simp [jsToNumber_natDigits]
    | cons j rest' =>
      rw [renderPath, splitDash_append _ _ (fun c hc => natDigits_ne_dash hc)]
      simp only [List.map_cons, jsToNumber_natDigits]
      rw [ih (by simp)]
      simp

/-- The batching worker is fuel-insensitive once the fuel covers the
list length. -/
theorem sourceBatchesGo_congr (f1 : ℕ) : ∀ (f2 : ℕ) (l : List JSString),
    l.length ≤ f1 → l.length ≤ f2 → sourceBatchesGo f1 l = sourceBatchesGo f2 l := by
  induction f1 with
  | zero =>
    intro f2 l h1 _
    cases l with
    | nil => cases f2 <;> rfl
    | cons x xs => simp at h1
  | succ g1 ih =>
    intro f2 l h1 h2
    cases l with
    | nil => cases f2 <;> rfl
    | cons x xs =>
      cases f2 with
      | zero => simp at h2
      | succ g2 =>
        simp only [sourceBatchesGo]
        congr 1
        apply ih
        · simp only [List.length_drop, List.length_cons] at h1 ⊢
          omega
        · simp only [List.length_drop, List.length_cons] at h2 ⊢
          omega

/-- Unfolding equation of the batch slicing on a non-empty list. -/
theorem sourceBatches_cons_eq (l : List JSString) (h : l ≠ []) :
    sourceBatches l = l.take 15 :: sourceBatches (l.drop 15) := by
  rcases l with _ | ⟨x, xs⟩
  · exact absurd rfl h
  · unfold sourceBatches
    simp only [List.length_cons, sourceBatchesGo]
    congr 1
    apply sourceBatchesGo_congr
    · simp only [List.length_drop, List.length_cons]
      omega
    · exact le_rfl

/-- Batch list indexing: the i-th batch is the slice starting at 15 i
of length at most 15, exactly as the loop's slice call produces. -/
theorem sourceBatches_getElem (l : List JSString) (i : ℕ) :
    (sourceBatches l)[i]? =
      if 15 * i < l.length then some ((l.drop (15 * i)).take 15) else none := by
  by_cases h : l = []
  · subst h
    simp [sourceBatches, sourceBatchesGo]
  · rw [sourceBatches_cons_eq l h]
    cases i with
    | zero =>
      have : 0 < l.length := List.length_pos.mpr h
      simp [this]
    | succ i =>
      simp only [List.getElem?_cons_succ]
      rw [sourceBatches_getElem (l.drop 15) i]
      simp only [List.length_drop, List.drop_drop]
      by_cases hlt : 15 * (i + 1) < l.length
      · rw [if_pos (by omega), if_pos hlt]
        congr 3
        omega
      · rw [if_neg (by omega), if_neg hlt]
termination_by l.length
decreasing_by
  simp only [List.length_drop]
  have : 0 < l.length := List.length_pos.mpr h
  omega

/-- The number of batches is the length divided by 15, rounded up. -/
theorem sourceBatches_length (l : List JSString) :
    (sourceBatches l).length = (l.length + 14) / 15 := by
  by_cases h : l = []
  · subst h
    rfl
  · rw [sourceBatches_cons_eq l h]
    simp only [List.length_cons, sourceBatches_length (l.drop 15), List.length_drop]
    have : 0 < l.length := List.length_pos.mpr h
    omega
termination_by l.length
decreasing_by
  simp only [List.length_drop]
  have : 0 < l.length := List.length_pos.mpr h
  omega

/-- Concatenating the batches restores the original file list. -/
theorem sourceBatches_flatten (l : List JSString) : (sourceBatches l).flatten = l := by
  by_cases h : l = []
  · subst h
    rfl
  · rw [sourceBatches_cons_eq l h]
    simp [sourceBatches_flatten (l.drop 15)]
termination_by l.length
decreasing_by
  simp only [List.length_drop]
  have : 0 < l.length := List.length_pos.mpr h
  omega

/-- Every batch is non-empty and holds at most 15 files. -/
theorem sourceBatches_mem (l : List JSString) (b : List JSString)
    (hb : b ∈ sourceBatches l) : b ≠ [] ∧ b.length ≤ 15 := by
  by_cases h : l = []
  · subst h
    simp [sourceBatches, sourceBatchesGo] at hb
  · rw [sourceBatches_cons_eq l h] at hb
    rcases List.mem_cons.mp hb with rfl | hb'
    · refine ⟨?_, ?_⟩
      · simp [List.take_eq_nil_iff, h]
      · simp
    · exact sourceBatches_mem (l.drop 15) b hb'
termination_by l.length
decreasing_by
  simp only [List.length_drop]
  have : 0 < l.length := List.length_pos.mpr h
  omega

/-- C1: the claim states that updateNodeByPath is a no-op and must not
throw whenever the path does not resolve, including when a
non-terminal index along the path is out of range.  On the concrete
stale path 0-0-0 over a childless root, the walk reads the
dependencies field of an undefined element and throws (modelled by
none) instead of returning the tree unchanged. -/
theorem updateNodeByPath_nonterminal_out_of_range_throws :
    updateNodeByPath staleTestTree "0-0-0".toList (fun n => n) = none := by
  rfl

/-- C2: the claim states that any two consecutive fetches through one
fetcher are issued at least 300 ms apart, even when invoked
concurrently, because the watermark read-modify-write is indivisible.
In the event-loop model of throttledFetch, the read and the write are
separated by the delay suspension: two calls that start at 1100, after
a request issued at 1000, both read the same watermark, both sleep
until 1300, and both issue at 1300 -- consecutive requests 0 ms
apart. -/
theorem throttledFetch_concurrent_calls_break_spacing :
    (runThrottle throttleInit overlapSchedule).issued = [(1, 1000), (2, 1300), (3, 1300)] ∧
    ¬ wellSpaced (runThrottle throttleInit overlapSchedule).issued := by
  have hiss : (runThrottle throttleInit overlapSchedule).issued =
      [(1, 1000), (2, 1300), (3, 1300)] := rfl
  refine ⟨hiss, ?_⟩
  rw [wellSpaced, hiss]
  intro hws
  simp only [List.chain'_cons, List.chain'_singleton] at hws
  omega

/-- C3 counterexample: the claim's dedup key is the lower-cased
trimmed name; the code keys on the lower-cased name without trimming,
so the records named foo and space-foo share a trimmed key yet both
survive in the final snapshot. -/
theorem addDependencies_trim_counterexample :
    mapValues (addDependencies []
      [⟨"foo".toList, "https://a".toList, "Build Manifest".toList⟩,
       ⟨" foo".toList, "https://b".toList, "Source Code Scan".toList⟩]) =
      [⟨"foo".toList, "https://a".toList, "Build Manifest".toList⟩,
       ⟨" foo".toList, "https://b".toList, "Source Code Scan".toList⟩] ∧
    jsToLower (jsTrim "foo".toList) = jsToLower (jsTrim " foo".toList) := by
  exact ⟨rfl, rfl⟩

/-- C7: scanning N source files with batch size 15 produces exactly
the ceiling of N over 15 batches (one extraction call each in the
phase-3 loop); the i-th batch is the i-th consecutive 15-file slice,
batches concatenate back to the original list, every batch is
non-empty with at most 15 files, and every batch except possibly the
last has exactly 15. -/
theorem sourceBatches_partition (l : List JSString) (_hl : l ≠ []) :
    (sourceBatches l).length = (l.length + 14) / 15 ∧
    (sourceBatches l).flatten = l ∧
    (∀ i : ℕ, (sourceBatches l)[i]? =
      if 15 * i < l.length then some ((l.drop (15 * i)).take 15) else none) ∧
    (∀ b ∈ sourceBatches l, b ≠ [] ∧ b.length ≤ 15) ∧
    (∀ i : ℕ, i + 1 < (sourceBatches l).length →
      ∃ b, (sourceBatches l)[i]? = some b ∧ b.length = 15) := by
  refine ⟨sourceBatches_length l, sourceBatches_flatten l, sourceBatches_getElem l,
    sourceBatches_mem l, ?_⟩
  intro i hi
  rw [sourceBatches_length l] at hi
  have hlt : 15 * (i + 1) < l.length := by omega
  refine ⟨(l.drop (15 * i)).take 15, ?_, ?_⟩
  · rw [sourceBatches_getElem l i, if_pos (by omega)]
  · simp only [List.length_take, List.length_drop]
    omega

/-- C7 witness: sixteen files split into one full batch of 15 and one
final batch of 1. -/
theorem sourceBatches_partition_witness :
    ((List.range 16).map natDigits ≠ [] ∧
      (sourceBatches ((List.range 16).map natDigits)).length =
        (((List.range 16).map natDigits).length + 14) / 15) := by
  refine ⟨by simp, (sourceBatches_partition ((List.range 16).map natDigits) (by simp)).1⟩

/-- Unfolding of addDependencies over the first record. -/
theorem addDependencies_cons (m : DepMap) (d : DiscoveredDependency)
    (rest : List DiscoveredDependency) :
    addDependencies m (d :: rest) =
      addDependencies
        (if !mapHas m (jsToLower d.name) && !d.name.isEmpty
          then mapSet m (jsToLower d.name) d else m) rest := rfl

/-- A key is absent exactly when no entry carries it. -/
theorem mapHas_eq_false_iff (m : DepMap) (k : JSString) :
    mapHas m k = false ↔ ∀ p ∈ m, p.1 ≠ k := by
  rw [mapHas, List.any_eq_false]
  simp

/-- Setting an absent key appends the entry. -/
theorem mapSet_of_not_has (m : DepMap) (k : JSString) (v : DiscoveredDependency)
    (h : mapHas m k = false) : mapSet m k v = m ++ [(k, v)] := by
  simp [mapSet, h]

/-- Key membership over an appended singleton entry. -/
theorem mapHas_append_single (m : DepMap) (k k' : JSString) (v : DiscoveredDependency) :
    mapHas (m ++ [(k', v)]) k = (mapHas m k || (k' == k)) := by
  simp [mapHas]

/-- Adding records never removes keys. -/
theorem mapHas_addDependencies_of_has (deps : List DiscoveredDependency) :
    ∀ (m : DepMap) (k : JSString), mapHas m k = true →
      mapHas (addDependencies m deps) k = true := by
  induction deps with
  | nil => intro m k h; exact h
  | cons d rest ih =>
    intro m k h
    rw [addDependencies_cons]
    apply ih
    split
    · rw [mapSet_of_not_has, mapHas_append_single, h]
      · rfl
      · rename_i hg
        cases hm : mapHas m (jsToLower d.name) with
        | false => rfl
        | true => rw [hm] at hg; simp at hg
    · exact h

/-- After a run of adds, every added non-empty name is present as a
key. -/
theorem mapHas_addDependencies_of_mem (deps : List DiscoveredDependency) :
    ∀ (m : DepMap) (d : DiscoveredDependency), d ∈ deps → d.name ≠ [] →
      mapHas (addDependencies m deps) (jsToLower d.name) = true := by
  induction deps with
  | nil => intro m d hd; exact absurd hd (List.not_mem_nil d)
  | cons d0 rest ih =>
    intro m d hd hne
    rw [addDependencies_cons]
    rcases List.mem_cons.mp hd with rfl | hd'
    · by_cases hhas : mapHas m (jsToLower d.name) = true
      · rw [if_neg (by simp [hhas])]
        exact mapHas_addDependencies_of_has rest m _ hhas
      · rw [if_pos (by simp [Bool.not_eq_true] at hhas ⊢; exact ⟨hhas, hne⟩)]
        apply mapHas_addDependencies_of_has
        rw [mapSet_of_not_has _ _ _ (Bool.not_eq_true _ ▸ (by simpa using hhas)),
          mapHas_append_single]
        simp
    · exact ih _ d hd' hne

/-- Every entry of the map after a run of adds either predates the run
or is the first record of the run with its key and a non-empty name,
added because the key was previously absent. -/
theorem mem_addDependencies (deps : List DiscoveredDependency) :
    ∀ (m : DepMap) (p : JSString × DiscoveredDependency),
      p ∈ addDependencies m deps →
      p ∈ m ∨ (mapHas m p.1 = false ∧ p.1 = jsToLower p.2.name ∧
        deps.find? (fun d => (jsToLower d.name == p.1) && !d.name.isEmpty) = some p.2) := by
  induction deps with
  | nil => intro m p hp; exact Or.inl hp
  | cons d rest ih =>
    intro m p hp
    rw [addDependencies_cons] at hp
    by_cases hg : (!mapHas m (jsToLower d.name) && !d.name.isEmpty) = true
    · rw [if_pos hg] at hp
      have hhas : mapHas m (jsToLower d.name) = false := by
        rcases Bool.and_eq_true_iff.mp hg with ⟨h1, _⟩
        simpa using h1
      have hne : d.name ≠ [] := by
        rcases Bool.and_eq_true_iff.mp hg with ⟨_, h2⟩
        simpa using h2
      rw [mapSet_of_not_has _ _ _ hhas] at hp
      rcases ih _ p hp with hin | ⟨hnh, hkey, hfind⟩
      · rcases List.mem_append.mp hin with hin' | hin''
        · exact Or.inl hin'
        · have hp' : p = (jsToLower d.name, d) := by simpa using hin''
          subst hp'
          refine Or.inr ⟨hhas, rfl, ?_⟩
          rw [List.find?_cons_of_pos]
          simp [hne]
      · have hnh' : mapHas m p.1 = false ∧ (jsToLower d.name == p.1) = false := by
          rw [mapHas_append_single] at hnh
          exact ⟨(Bool.or_eq_false_iff.mp hnh).1, (Bool.or_eq_false_iff.mp hnh).2⟩
        refine Or.inr ⟨hnh'.1, hkey, ?_⟩
        rw [List.find?_cons_of_neg, hfind]
        simp [hnh'.2]
    · rw [if_neg hg] at hp
      rcases ih _ p hp with hin | ⟨hnh, hkey, hfind⟩
      · exact Or.inl hin
      · refine Or.inr ⟨hnh, hkey, ?_⟩
        rw [List.find?_cons_of_neg, hfind]
        intro hcontra
        rcases Bool.and_eq_true_iff.mp hcontra with ⟨h1, h2⟩
        have hkd : jsToLower d.name = p.1 := by simpa using h1
        have hdne : ¬ d.name.isEmpty := by simpa using h2
        apply hg
        rw [hkd]
        simp [hnh, List.isEmpty_iff] at *
        simp [hnh, hdne]

/-- A run of adds keeps the map's keys pairwise distinct. -/
theorem addDependencies_keys_nodup (deps : List DiscoveredDependency) :
    ∀ m : DepMap, (m.map Prod.fst).Nodup → ((addDependencies m deps).map Prod.fst).Nodup := by
  induction deps with
  | nil => intro m hm; exact hm
  | cons d rest ih =>
    intro m hm
    rw [addDependencies_cons]
    split
    · rename_i hg
      have hhas : mapHas m (jsToLower d.name) = false := by
        rcases Bool.and_eq_true_iff.mp hg with ⟨h1, _⟩
        simpa using h1
      apply ih
      rw [mapSet_of_not_has _ _ _ hhas, List.map_append]
      refine List.Nodup.append hm (by simp) ?_
      intro a ha hb
      have hb' : a = jsToLower d.name := by simpa using hb
      subst hb'
      rcases List.mem_map.mp ha with ⟨p, hp, hpa⟩
      exact (mapHas_eq_false_iff m _).mp hhas p hp hpa
    · exact ih m hm

/-- Every value stored by a run of adds has a non-empty name, provided
the starting map already satisfies that. -/
theorem addDependencies_values_nonempty (deps : List DiscoveredDependency) (m : DepMap)
    (hm : ∀ p ∈ m, p.2.name ≠ []) :
    ∀ p ∈ addDependencies m deps, p.2.name ≠ [] := by
  intro p hp
  rcases mem_addDependencies deps m p hp with hin | ⟨_, _, hfind⟩
  · exact hm p hin
  · have hpred := List.find?_some hfind
    rcases Bool.and_eq_true_iff.mp hpred with ⟨_, h2⟩
    simpa [List.isEmpty_iff] using h2

/-- C3 (amended): the dedup key is the lower-cased name with no
trimming; then the registry keeps exactly one record per key -- keys
are pairwise distinct, every added record with a non-empty name is
represented -- and the record stored under a key is precisely the
first record added with that key and a non-empty name, its fields
(including discoverySource provenance) untouched by later additions. -/
theorem addDependencies_first_discovery_wins (deps : List DiscoveredDependency) :
    ((addDependencies [] deps).map Prod.fst).Nodup ∧
    (∀ d ∈ deps, d.name ≠ [] →
      mapHas (addDependencies [] deps) (jsToLower d.name) = true) ∧
    (∀ p ∈ addDependencies [] deps,
      p.1 = jsToLower p.2.name ∧
      deps.find? (fun d => (jsToLower d.name == p.1) && !d.name.isEmpty) = some p.2) := by
  refine ⟨addDependencies_keys_nodup deps [] (by simp), ?_, ?_⟩
  · intro d hd hne
    exact mapHas_addDependencies_of_mem deps [] d hd hne
  · intro p hp
    rcases mem_addDependencies deps [] p hp with hin | ⟨_, hkey, hfind⟩
    · simp at hin
    · exact ⟨hkey, hfind⟩

/-- C3 witness: the spec's own example, with the case flipped --
adding Foo from the source scan and then foo from a build manifest
keeps one record with the source-scan provenance. -/
theorem addDependencies_first_discovery_wins_witness :
    (((addDependencies []
      [⟨"Foo".toList, "u1".toList, "Source Code Scan".toList⟩,
       ⟨"foo".toList, "u2".toList, "Build Manifest".toList⟩]).map Prod.fst).Nodup ∧
    (∀ d ∈ [(⟨"Foo".toList, "u1".toList, "Source Code Scan".toList⟩ : DiscoveredDependency),
       ⟨"foo".toList, "u2".toList, "Build Manifest".toList⟩], d.name ≠ [] →
      mapHas (addDependencies []
        [⟨"Foo".toList, "u1".toList, "Source Code Scan".toList⟩,
         ⟨"foo".toList, "u2".toList, "Build Manifest".toList⟩]) (jsToLower d.name) = true) ∧
    (∀ p ∈ addDependencies []
        [⟨"Foo".toList, "u1".toList, "Source Code Scan".toList⟩,
         ⟨"foo".toList, "u2".toList, "Build Manifest".toList⟩],
      p.1 = jsToLower p.2.name ∧
      [(⟨"Foo".toList, "u1".toList, "Source Code Scan".toList⟩ : DiscoveredDependency),
       ⟨"foo".toList, "u2".toList, "Build Manifest".toList⟩].find?
        (fun d => (jsToLower d.name == p.1) && !d.name.isEmpty) = some p.2)) :=
  addDependencies_first_discovery_wins
    [⟨"Foo".toList, "u1".toList, "Source Code Scan".toList⟩,
     ⟨"foo".toList, "u2".toList, "Build Manifest".toList⟩]

/-- C6: whenever the full-assessment response fails to parse,
analyzeDependency returns the fallback assessment -- risk level
Critical, empty vulnerability list, non-empty explanatory text in
every textual field -- and, being a total function, never raises. -/
theorem analyzeDependency_fallback (name url date text : JSString)
    (parse : JSString → Option RiskAssessment)
    (h : parseGeminiJson parse text = none) :
    analyzeDependency name url date text parse = fallbackAssessment ∧
    (analyzeDependency name url date text parse).riskLevel = .Critical ∧
    (analyzeDependency name url date text parse).vulnerabilityAnalysis = [] ∧
    (analyzeDependency name url date text parse).maintainerAnalysis ≠ [] ∧
    (analyzeDependency name url date text parse).codeSecurityAnalysis ≠ [] ∧
    (analyzeDependency name url date text parse).riskSummary ≠ [] := by
  have he : analyzeDependency name url date text parse = fallbackAssessment := by
    unfold analyzeDependency
    rw [h]
  rw [he]
  exact ⟨rfl, rfl, rfl, by decide, by decide, by decide⟩

/-- C6 witness: a parse that always fails makes the concrete analysis
return the fallback assessment. -/
theorem analyzeDependency_fallback_witness :
    analyzeDependency "libA".toList "https://x".toList "2024-01-01".toList "oops".toList
        (fun _ => none) = fallbackAssessment ∧
    (analyzeDependency "libA".toList "https://x".toList "2024-01-01".toList "oops".toList
        (fun _ => none)).riskLevel = .Critical ∧
    (analyzeDependency "libA".toList "https://x".toList "2024-01-01".toList "oops".toList
        (fun _ => none)).vulnerabilityAnalysis = [] ∧
    (analyzeDependency "libA".toList "https://x".toList "2024-01-01".toList "oops".toList
        (fun _ => none)).maintainerAnalysis ≠ [] ∧
    (analyzeDependency "libA".toList "https://x".toList "2024-01-01".toList "oops".toList
        (fun _ => none)).codeSecurityAnalysis ≠ [] ∧
    (analyzeDependency "libA".toList "https://x".toList "2024-01-01".toList "oops".toList
        (fun _ => none)).riskSummary ≠ [] :=
  analyzeDependency_fallback "libA".toList "https://x".toList "2024-01-01".toList "oops".toList
    (fun _ => none) rfl

/-- The batch loop only ever grows the map through addDependencies, so
non-emptiness of stored names is preserved across phase 3. -/
theorem scanBatches_values_nonempty (env : DiscoveryEnv) :
    ∀ (batches : List (List JSString)) (m m' : DepMap),
      scanBatches env batches m = .ok m' → (∀ p ∈ m, p.2.name ≠ []) →
      ∀ p ∈ m', p.2.name ≠ [] := by
  intro batches
  induction batches with
  | nil =>
    intro m m' h hm
    simp only [scanBatches] at h
    cases h
    exact hm
  | cons b rest ih =>
    intro m m' h hm
    simp only [scanBatches] at h
    rcases hf : fetchContents env b with e | contents
    · rw [hf] at h
      simp at h
    · rw [hf] at h
      exact ih _ m' h (addDependencies_values_nonempty _ _ hm)

/-- Phase 2 produces a map whose stored names are all non-empty. -/
theorem manifestPhase_values_nonempty (env : DiscoveryEnv) (paths : List JSString)
    (tc : JSString) (m : DepMap) (h : manifestPhase env paths = .ok (tc, m)) :
    ∀ p ∈ m, p.2.name ≠ [] := by
  unfold manifestPhase at h
  split at h
  · cases h
    intro p hp
    simp at hp
  · rcases hfc : fetchContents env paths with e | contents
    · rw [hfc] at h
      simp at h
    · rw [hfc] at h
      dsimp only at h
      rcases hg : env.manifestGen contents with e | text
      · rw [hg] at h
        simp at h
      · rw [hg] at h
        dsimp only at h
        rcases hp : parseGeminiJson env.parseManifest text with _ | r
        · rw [hp] at h
          cases h
          intro p hp'
          simp at hp'
        · rw [hp] at h
          cases h
          exact addDependencies_values_nonempty _ [] (by simp)

/-- C10: a record with an empty name is never inserted into the
accumulated dependency map, so every record of the dependencies list
of a successful discovery run has a non-empty name. -/
theorem discoverDependencies_no_empty_names (env : DiscoveryEnv) (r : InitialDiscoveryResult)
    (h : discoverDependencies env = .ok r) :
    ∀ dep ∈ r.dependencies, dep.name ≠ [] := by
  unfold discoverDependencies at h
  rcases ht : env.getRepoFileTree with e | fileTree
  · rw [ht] at h
    simp at h
  · rw [ht] at h
    dsimp only at h
    rcases hm : manifestPhase env (fileTree.filter isManifestPath) with e | ⟨tc, m1⟩
    · rw [hm] at h
      simp at h
    · rw [hm] at h
      dsimp only at h
      rcases hs : scanBatches env (sourceBatches (fileTree.filter isSourcePath)) m1 with e | m2
      · rw [hs] at h
        simp at h
      · rw [hs] at h
        dsimp only at h
        rcases hl : licensePhase env (fileTree.find? isLicensePath) with e | lic
        · rw [hl] at h
          simp at h
        · rw [hl] at h
          dsimp only at h
          cases h
          intro dep hdep
          rcases List.mem_map.mp hdep with ⟨p, hp, rfl⟩
          exact scanBatches_values_nonempty env _ m1 m2 hs
            (manifestPhase_values_nonempty env _ tc m1 hm) p hp

/-- C10 witness: a discovery run through an environment whose source
scan reports one empty-named and one properly named record yields a
list whose surviving record has a non-empty name. -/
theorem discoverDependencies_no_empty_names_witness :
    (⟨"LibB".toList, "https://b".toList, "Source Code Scan".toList⟩ :
      DiscoveredDependency).name ≠ [] :=
  discoverDependencies_no_empty_names
    { getRepoFileTree := .ok ["a.c".toList]
      getFileContent := fun _ => .ok "x".toList
      manifestGen := fun _ => .ok []
      sourceGen := fun _ _ => .ok "ok".toList
      licenseGen := fun _ => .ok []
      parseManifest := fun _ => none
      parseDeps := fun _ => some [([], "https://e".toList), ("LibB".toList, "https://b".toList)]
      parseLicense := fun _ => none }
    (InitialDiscoveryResult.mk
      [⟨"LibB".toList, "https://b".toList, "Source Code Scan".toList⟩]
      "Not determined.".toList none)
    (by rfl)
    ⟨"LibB".toList, "https://b".toList, "Source Code Scan".toList⟩
    (by simp)

/-- C4 counterexample: a generic HTTP 500 while fetching a source file
in phase 3 is neither a rate-limit nor a not-found failure, yet
discovery propagates it instead of returning a DiscoveryResult with
that batch treated as empty. -/
theorem discoverDependencies_http500_aborts :
    discoverDependencies http500Env =
      .error (.fetch (.requestFailed 500 "https://api.github.com/x".toList)) := by
  rfl

/-- When every content fetch succeeds, the Promise.all over a path
list yields the path-content pairs. -/
theorem fetchContents_ok (env : DiscoveryEnv) (contentOf : JSString → JSString)
    (hc : ∀ p, env.getFileContent p = .ok (contentOf p)) (paths : List JSString) :
    fetchContents env paths = .ok (paths.map (fun p => (p, contentOf p))) := by
  induction paths with
  | nil => rfl
  | cons p rest ih =>
    simp only [fetchContents, hc p, ih, List.map_cons]

/-- When every content fetch succeeds, the phase-3 loop runs every
batch to completion regardless of how the extraction calls behave: a
batch whose extraction call throws or parses to nothing contributes an
empty record list and the loop continues with the next batch. -/
theorem scanBatches_ok_of_fetch_ok (env : DiscoveryEnv) (contentOf : JSString → JSString)
    (hc : ∀ p, env.getFileContent p = .ok (contentOf p)) :
    ∀ (batches : List (List JSString)) (m : DepMap),
      scanBatches env batches m =
        .ok (batches.foldl
          (fun acc b =>
            addDependencies acc
              (analyzeSourceCodeBatch env (b.map (fun p => (p, contentOf p)))
                (acc.map (fun x => x.1)))) m) := by
  intro batches
  induction batches with
  | nil => intro m; rfl
  | cons b rest ih =>
    intro m
    simp only [scanBatches, fetchContents_ok env contentOf hc b, List.foldl_cons]
    exact ih _

/-- C4 (amended): parse failures in phases 2 and 4 and any failure of
a source-scan batch's extraction call degrade gracefully -- discovery
still returns a DiscoveryResult, and a failing batch contributes zero
dependencies without stopping later batches -- but a fetch failure of
any class in phases 2-4, and a thrown extraction-service error in
phase 2 or 4, propagate and abort the run.  Hypotheses: phase 1
succeeded, every file fetch succeeds, and the manifest and license
extraction calls do not throw; the source-scan extraction calls and
every structural parse are unconstrained. -/
theorem discoverDependencies_degrades_without_fatal_failures (env : DiscoveryEnv)
    (tree : List JSString) (contentOf : JSString → JSString)
    (ht : env.getRepoFileTree = .ok tree)
    (hc : ∀ p, env.getFileContent p = .ok (contentOf p))
    (hm : ∀ contents, ∃ t, env.manifestGen contents = .ok t)
    (hl : ∀ c, ∃ t, env.licenseGen c = .ok t) :
    (∃ r, discoverDependencies env = .ok r) ∧
    (∀ (batches : List (List JSString)) (m : DepMap),
      scanBatches env batches m =
        .ok (batches.foldl
          (fun acc b =>
            addDependencies acc
              (analyzeSourceCodeBatch env (b.map (fun p => (p, contentOf p)))
                (acc.map (fun x => x.1)))) m)) := by
  refine ⟨?_, scanBatches_ok_of_fetch_ok env contentOf hc⟩
  have hman : ∃ tc m1, manifestPhase env (tree.filter isManifestPath) = .ok (tc, m1) := by
    unfold manifestPhase
    by_cases he : (tree.filter isManifestPath).isEmpty
    · rw [if_pos he]
      exact ⟨_, _, rfl⟩
    · rw [if_neg he, fetchContents_ok env contentOf hc]
      dsimp only
      obtain ⟨t, hmg⟩ := hm ((tree.filter isManifestPath).map (fun p => (p, contentOf p)))
      rw [hmg]
      dsimp only
      rcases parseGeminiJson env.parseManifest t with _ | r
      · exact ⟨_, _, rfl⟩
      · exact ⟨_, _, rfl⟩
  have hlic : ∃ x, licensePhase env (tree.find? isLicensePath) = .ok x := by
    unfold licensePhase
    rcases tree.find? isLicensePath with _ | lp
    · exact ⟨none, rfl⟩
    · dsimp only
      rw [hc lp]
      dsimp only
      obtain ⟨t, hg⟩ := hl (jsSubstring (contentOf lp) 5000)
      rw [hg]
      exact ⟨_, rfl⟩
  obtain ⟨tc, m1, hman'⟩ := hman
  obtain ⟨lic, hlic'⟩ := hlic
  refine ⟨⟨mapValues ((sourceBatches (tree.filter isSourcePath)).foldl
      (fun acc b =>
        addDependencies acc
          (analyzeSourceCodeBatch env (b.map (fun p => (p, contentOf p)))
            (acc.map (fun x => x.1)))) m1), tc, lic⟩, ?_⟩
  unfold discoverDependencies
  rw [ht]
  dsimp only
  rw [hman']
  dsimp only
  rw [scanBatches_ok_of_fetch_ok env contentOf hc _ m1]
  dsimp only
  rw [hlic']

/-- C4 witness: an environment with two source files in one batch
whose extraction call always throws still completes discovery, and the
batch fold runs over every batch. -/
theorem discoverDependencies_degrades_witness :
    (∃ r, discoverDependencies gracefulEnv = .ok r) ∧
    (∀ (batches : List (List JSString)) (m : DepMap),
      scanBatches gracefulEnv batches m =
        .ok (batches.foldl
          (fun acc b =>
            addDependencies acc
              (analyzeSourceCodeBatch gracefulEnv (b.map (fun p => (p, p)))
                (acc.map (fun x => x.1)))) m)) :=
  discoverDependencies_degrades_without_fatal_failures gracefulEnv
    ["a.c".toList, "b.c".toList] (fun p => p) rfl (fun _ => rfl)
    (fun _ => ⟨[], rfl⟩) (fun _ => ⟨[], rfl⟩)

/-- A list is a Boolean prefix of itself followed by anything. -/
theorem isPrefixOf_append_self (l r : List Char) : l.isPrefixOf (l ++ r) = true := by
  induction l with
  | nil => simp [List.isPrefixOf]
  | cons c cs ih => simp [List.isPrefixOf, ih]

/-- The first replace strips a json-tagged opening fence followed by a
newline. -/
theorem stripLeadingFence_json (rest : JSString) :
    stripLeadingFence (fenceOpen ++ '\n' :: rest) = rest.dropWhile isJsWhitespace := by
  unfold stripLeadingFence
  rw [if_pos (isPrefixOf_append_self fenceOpen ('\n' :: rest))]
  have h7 : (7 : ℕ) = fenceOpen.length := rfl
  rw [h7, List.drop_left, List.dropWhile_cons, if_pos (by decide)]

/-- The second replace strips a closing fence preceded by a newline,
provided the body does not itself end in whitespace. -/
theorem stripTrailingFence_json (j : JSString) (c1 : Char)
    (hl : j.getLast? = some c1) (hl' : isJsWhitespace c1 = false) :
    stripTrailingFence (j ++ '\n' :: fenceClose) = j := by
  have hrev : (j ++ '\n' :: fenceClose).reverse = fenceClose.reverse ++ '\n' :: j.reverse := by
    simp
  unfold stripTrailingFence
  unfold List.isSuffixOf
  rw [hrev, if_pos (isPrefixOf_append_self fenceClose.reverse ('\n' :: j.reverse))]
  have h3 : (3 : ℕ) = fenceClose.reverse.length := rfl
  rw [h3, List.drop_left, List.dropWhile_cons, if_pos (by decide)]
  cases hjr : j.reverse with
  | nil =>
    rw [List.reverse_eq_nil_iff] at hjr
    subst hjr
    simp at hl
  | cons a t =>
    have ha : a = c1 := by
      have hhr := List.head?_reverse j
      rw [hjr, hl] at hhr
      simpa using hhr
    rw [List.dropWhile_cons, if_neg (by rw [ha, hl']; simp)]
    rw [← hjr, List.reverse_reverse]

/-- C9 counterexample: the replaces only strip an opening fence tagged
json; a response wrapped in bare fences does not parse to the same
value as the bare JSON -- the leading fence survives, so the parse
fails (yielding none, not an exception). -/
theorem parseGeminiJson_bare_fence_counterexample :
    toyJsonParse "\x7b\x7d".toList = some 0 ∧
    parseGeminiJson toyJsonParse "```\n\x7b\x7d\n```".toList = none ∧
    cleanGeminiText "```\n\x7b\x7d\n```".toList = "```\n\x7b\x7d".toList := by
  exact ⟨rfl, rfl, rfl⟩

/-- C9 (amended): a response wrapped in a json-tagged opening fence
and a closing fence (the shape the replaces target) parses exactly as
the bare JSON does, provided the JSON body neither starts nor ends in
whitespace; and a parse failure on the cleaned text yields none rather
than an exception. -/
theorem parseGeminiJson_json_fence_roundtrip {T : Type} (parse : JSString → Option T)
    (j : JSString) (c0 c1 : Char)
    (hh : j.head? = some c0) (hh' : isJsWhitespace c0 = false)
    (hl : j.getLast? = some c1) (hl' : isJsWhitespace c1 = false) :
    parseGeminiJson parse ("```json\n".toList ++ j ++ "\n```".toList) = parse j ∧
    (∀ text : JSString, parse (cleanGeminiText text) = none →
      parseGeminiJson parse text = none) := by
  constructor
  · unfold parseGeminiJson cleanGeminiText
    have e1 : ("```json\n".toList : List Char) ++ j ++ "\n```".toList =
        fenceOpen ++ '\n' :: (j ++ '\n' :: fenceClose) := by
      have e2 : ("```json\n".toList : List Char) = fenceOpen ++ ['\n'] := rfl
      have e3 : ("\n```".toList : List Char) = '\n' :: fenceClose := rfl
      rw [e2, e3]
      simp
    rw [e1, stripLeadingFence_json]
    cases j with
    | nil => simp at hh
    | cons a t =>
      have ha : a = c0 := by simpa using hh
      rw [List.cons_append, List.dropWhile_cons, if_neg (by rw [ha, hh']; simp),
        ← List.cons_append, stripTrailingFence_json (a :: t) c1 hl hl']
  · intro text hp
    unfold parseGeminiJson
    exact hp

/-- C9 witness: a concrete json-tagged fenced response round-trips to
the bare parse. -/
theorem parseGeminiJson_json_fence_roundtrip_witness :
    (parseGeminiJson toyJsonParse
        ("```json\n".toList ++ "\x7b\x7d".toList ++ "\n```".toList) =
      toyJsonParse "\x7b\x7d".toList) ∧
    (∀ text : JSString, toyJsonParse (cleanGeminiText text) = none →
      parseGeminiJson toyJsonParse text = none) :=
  parseGeminiJson_json_fence_roundtrip toyJsonParse "\x7b\x7d".toList '\x7b' '\x7d'
    rfl rfl rfl rfl

/-- Replacing the child list replaces exactly the dependencies
field. -/
theorem withDependencies_dependencies (n : DependencyNode) (ds : List DependencyNode) :
    (n.withDependencies ds).dependencies = ds := by
  cases n
  rfl

/-- Core frame lemma: when the path resolves, the walk succeeds and
every subtree whose position is incomparable with the path (neither an
ancestor nor a descendant position) is unchanged. -/
theorem updateNodeCore_frame (f : DependencyNode → DependencyNode) :
    ∀ (parts : List ℕ) (nodes : List DependencyNode) (tgt : DependencyNode),
      getNode? parts nodes = some tgt →
      ∃ out, updateNodeCore f (parts.map some) nodes = some out ∧
        ∀ q : List ℕ, (¬ ∃ r, q ++ r = parts) → (¬ ∃ r, parts ++ r = q) →
          getNode? q out = getNode? q nodes := by
  intro parts
  induction parts with
  | nil =>
    intro nodes tgt h
    simp [getNode?] at h
  | cons i rest ih =>
    intro nodes tgt h
    cases rest with
    | nil =>
      simp only [getNode?] at h
      have hi : i < nodes.length := by
        by_contra hc
        rw [List.getElem?_eq_none (by omega)] at h
        cases h
      refine ⟨nodes.set i (f nodes[i]), ?_, ?_⟩
      · simp only [List.map_cons, List.map_nil, updateNodeCore]
        rw [dif_pos hi]
      · intro q hq1 hq2
        cases q with
        | nil => simp [getNode?]
        | cons jq qrest =>
          have hne : jq ≠ i := by
            intro he
            subst he
            cases qrest with
            | nil => exact hq1 ⟨[], by simp⟩
            | cons b bs => exact hq2 ⟨b :: bs, rfl⟩
          have hget : (nodes.set i (f nodes[i]))[jq]? = nodes[jq]? :=
            List.getElem?_set_ne (fun he => hne he.symm)
          cases qrest with
          | nil => simp only [getNode?]; exact hget
          | cons b bs => simp only [getNode?]; rw [hget]
    | cons j rest' =>
      simp only [getNode?] at h
      rcases hg : nodes[i]? with _ | n
      · rw [hg] at h
        simp at h
      · rw [hg] at h
        dsimp only at h
        have hi : i < nodes.length := by
          by_contra hc
          rw [List.getElem?_eq_none (by omega)] at hg
          cases hg
        have hn : nodes[i] = n := by
          rw [List.getElem?_eq_getElem hi] at hg
          exact Option.some.inj hg
        obtain ⟨out', hout', hframe'⟩ := ih n.dependencies tgt h
        refine ⟨nodes.set i (n.withDependencies out'), ?_, ?_⟩
        · simp only [List.map_cons, updateNodeCore]
          rw [dif_pos hi, hn]
          simp only [List.map_cons] at hout'
          rw [hout']
        · intro q hq1 hq2
          cases q with
          | nil => simp [getNode?]
          | cons jq qrest =>
            by_cases hji : jq = i
            · subst hji
              cases qrest with
              | nil => exact absurd ⟨j :: rest', rfl⟩ hq1
              | cons b bs =>
                simp only [getNode?]
                rw [List.getElem?_set_eq_of_lt _ hi, hg]
                dsimp only
                rw [withDependencies_dependencies]
                apply hframe'
                · rintro ⟨r, hr⟩
                  exact hq1 ⟨r, by rw [← hr]; rfl⟩
                · rintro ⟨r, hr⟩
                  exact hq2 ⟨r, by rw [List.cons_append, hr]⟩
            · have hget : (nodes.set i (n.withDependencies out'))[jq]? = nodes[jq]? :=
                List.getElem?_set_ne (fun he => hji he.symm)
              cases qrest with
              | nil => simp only [getNode?]; exact hget
              | cons b bs => simp only [getNode?]; rw [hget]

/-- C5: for every tree and every resolving path, updateNodeByPath
succeeds and every subtree outside the path's ancestry chain (every
untouched sibling subtree) is unchanged -- in this pure embedding,
reference identity of untouched siblings is rendered as equality, and
no mutation of previously returned snapshots can occur because every
update builds a new value. -/
theorem updateNodeByPath_frame (nodes : List DependencyNode) (q : List ℕ)
    (f : DependencyNode → DependencyNode) (tgt : DependencyNode)
    (h : getNode? q nodes = some tgt) :
    ∃ out, updateNodeByPath nodes (renderPath q) f = some out ∧
      ∀ p : List ℕ, (¬ ∃ r, p ++ r = q) → (¬ ∃ r, q ++ r = p) →
        getNode? p out = getNode? p nodes := by
  have hne : q ≠ [] := by
    intro he
    subst he
    simp [getNode?] at h
  unfold updateNodeByPath
  rw [parse_renderPath q hne]
  exact updateNodeCore_frame f q nodes tgt h

/-- C5 witness: updating the root of the concrete one-node tree at its
resolving path succeeds with the frame property. -/
theorem updateNodeByPath_frame_witness :
    ∃ out, updateNodeByPath staleTestTree (renderPath [0]) toggleExpandUpdater = some out ∧
      ∀ p : List ℕ, (¬ ∃ r, p ++ r = [0]) → (¬ ∃ r, [0] ++ r = p) →
        getNode? p out = getNode? p staleTestTree :=
  updateNodeByPath_frame staleTestTree [0] toggleExpandUpdater
    (.mk "m5stack/M5StampLC".toList "https://github.com/m5stack/M5StampLC".toList
      "Root Repository".toList ['0'] 0 false true [] none) rfl

/-- Replacing the child list keeps the path. -/
theorem withDependencies_path (n : DependencyNode) (ds : List DependencyNode) :
    (n.withDependencies ds).path = n.path := by
  cases n
  rfl

/-- Replacing the child list keeps the level. -/
theorem withDependencies_level (n : DependencyNode) (ds : List DependencyNode) :
    (n.withDependencies ds).level = n.level := by
  cases n
  rfl

/-- The expand toggle keeps path, level and children. -/
theorem toggleExpandUpdater_fields (n : DependencyNode) :
    (toggleExpandUpdater n).path = n.path ∧ (toggleExpandUpdater n).level = n.level ∧
      (toggleExpandUpdater n).dependencies = n.dependencies := by
  cases n
  exact ⟨rfl, rfl, rfl⟩

/-- The loading and expanded flag updates keep path, level and
children. -/
theorem setFlagsUpdater_fields (b : Bool) (e : Option Bool) (n : DependencyNode) :
    (setFlagsUpdater b e n).path = n.path ∧ (setFlagsUpdater b e n).level = n.level ∧
      (setFlagsUpdater b e n).dependencies = n.dependencies := by
  cases n
  exact ⟨rfl, rfl, rfl⟩

/-- Storing an assessment keeps path, level and children. -/
theorem analyzeFinishUpdater_fields (a : RiskAssessment) (n : DependencyNode) :
    (analyzeFinishUpdater a n).path = n.path ∧ (analyzeFinishUpdater a n).level = n.level ∧
      (analyzeFinishUpdater a n).dependencies = n.dependencies := by
  cases n
  exact ⟨rfl, rfl, rfl⟩

/-- Installing discovered children keeps path and level and sets
exactly the given children. -/
theorem discoverFinishUpdater_fields (children : List DependencyNode) (n : DependencyNode) :
    (discoverFinishUpdater children n).path = n.path ∧
      (discoverFinishUpdater children n).level = n.level ∧
      (discoverFinishUpdater children n).dependencies = children := by
  cases n
  exact ⟨rfl, rfl, rfl⟩

/-- Rendering a path extended by one index appends a dash and the
index's digits. -/
theorem renderPath_append (q : List ℕ) (j : ℕ) (h : q ≠ []) :
    renderPath (q ++ [j]) = renderPath q ++ '-' :: natDigits j := by
  induction q with
  | nil => exact absurd rfl h
  | cons i rest ih =>
    cases rest with
    | nil => rfl
    | cons k rest' =>
      rw [List.cons_append, List.cons_append, renderPath, ← List.cons_append,
        ih (by simp), renderPath]
      simp

/-- Nothing is addressable in an empty forest. -/
theorem getNode?_nil : ∀ q : List ℕ, getNode? q ([] : List DependencyNode) = none
  | [] => rfl
  | [_] => rfl
  | _ :: _ :: _ => rfl

/-- Indexing into the constructed children: the j-th child carries the
j-th discovered record, the path extended by the running index, and
the incremented level. -/
theorem mkChildren_getElem (p : JSString) (l : ℕ) :
    ∀ (deps : List DiscoveredDependency) (start j : ℕ),
      (mkChildren p l start deps)[j]? =
        if h : j < deps.length then
          some (.mk deps[j].name deps[j].url deps[j].discoverySource
            (p ++ '-' :: natDigits (start + j)) (l + 1) false false [] none)
        else none := by
  intro deps
  induction deps with
  | nil =>
    intro start j
    simp [mkChildren]
  | cons d rest ih =>
    intro start j
    cases j with
    | zero => simp [mkChildren]
    | succ j' =>
      simp only [mkChildren, List.getElem?_cons_succ, ih (start + 1) j']
      by_cases hj : j' < rest.length
      · rw [dif_pos hj, dif_pos (by simpa using Nat.succ_lt_succ hj)]
        simp only [List.getElem_cons_succ]
        have : start + 1 + j' = start + (j' + 1) := by omega
        rw [this]
      · rw [dif_neg hj, dif_neg (by simp; omega)]

/-- The children installed under a node at position q are well
addressed below q. -/
theorem mkChildren_wellAddressed (q : List ℕ) (hq : q ≠ [])
    (deps : List DiscoveredDependency) :
    wellAddressedFrom q (mkChildren (renderPath q) (q.length - 1) 0 deps) := by
  intro p m hm
  cases p with
  | nil => simp [getNode?] at hm
  | cons j prest =>
    cases prest with
    | nil =>
      simp only [getNode?] at hm
      rw [mkChildren_getElem] at hm
      split at hm
      · cases hm
        refine ⟨?_, ?_⟩
        · simp only [DependencyNode.path]
          rw [renderPath_append q j hq, Nat.zero_add]
        · simp only [DependencyNode.level, List.length_append, List.length_cons,
            List.length_nil]
          have : 0 < q.length := List.length_pos.mpr hq
          omega
      · cases hm
    | cons b bs =>
      simp only [getNode?] at hm
      rcases hg : (mkChildren (renderPath q) (q.length - 1) 0 deps)[j]? with _ | n
      · rw [hg] at hm
        simp at hm
      · rw [hg] at hm
        dsimp only at hm
        rw [mkChildren_getElem] at hg
        split at hg
        · cases hg
          simp only [DependencyNode.dependencies] at hm
          rw [getNode?_nil] at hm
          cases hm
        · cases hg

/-- Addressing decomposes along a split of the position. -/
theorem getNode?_append (q1 : List ℕ) :
    ∀ (q2 : List ℕ) (nodes : List DependencyNode), q1 ≠ [] → q2 ≠ [] →
      getNode? (q1 ++ q2) nodes =
        match getNode? q1 nodes with
        | none => none
        | some n => getNode? q2 n.dependencies := by
  induction q1 with
  | nil => intro q2 nodes h1 _; exact absurd rfl h1
  | cons i rest ih =>
    intro q2 nodes _ h2
    cases rest with
    | nil =>
      cases q2 with
      | nil => exact absurd rfl h2
      | cons b bs =>
        simp only [List.cons_append, List.nil_append, getNode?]
    | cons k rest' =>
      simp only [List.cons_append, getNode?]
      rcases hg : nodes[i]? with _ | n
      all_goals dsimp only
      simp only [List.append_eq]
      rw [← List.cons_append, ih q2 n.dependencies (by simp) h2]

/-- The subtree below a resolved node is well addressed relative to
the extended position. -/
theorem wellAddressedFrom_sub (pre parts : List ℕ) (nodes : List DependencyNode)
    (n : DependencyNode) (hparts : parts ≠ [])
    (hwa : wellAddressedFrom pre nodes) (hn : getNode? parts nodes = some n) :
    wellAddressedFrom (pre ++ parts) n.dependencies := by
  intro q m hm
  have hq : q ≠ [] := by
    intro he
    subst he
    simp [getNode?] at hm
  have hfull : getNode? (parts ++ q) nodes = some m := by
    rw [getNode?_append parts q nodes hparts hq, hn]
    exact hm
  have h2 := hwa (parts ++ q) m hfull
  refine ⟨?_, ?_⟩
  · rw [h2.1, List.append_assoc]
  · rw [h2.2, List.append_assoc]

/-- Preservation: a path-scoped update whose updater keeps the
target's path and level and leaves a well-addressed subtree keeps the
whole tree well addressed. -/
theorem updateNodeCore_preserves (f : DependencyNode → DependencyNode) :
    ∀ (parts pre : List ℕ) (nodes out : List DependencyNode),
      updateNodeCore f (parts.map some) nodes = some out →
      wellAddressedFrom pre nodes →
      (∀ n : DependencyNode,
        n.path = renderPath (pre ++ parts) → n.level = (pre ++ parts).length - 1 →
        wellAddressedFrom (pre ++ parts) n.dependencies →
        (f n).path = n.path ∧ (f n).level = n.level ∧
          wellAddressedFrom (pre ++ parts) (f n).dependencies) →
      wellAddressedFrom pre out := by
  intro parts
  induction parts with
  | nil =>
    intro pre nodes out hu hwa _
    simp only [List.map_nil, updateNodeCore] at hu
    cases hu
    exact hwa
  | cons i rest ih =>
    intro pre nodes out hu hwa hf
    cases rest with
    | nil =>
      simp only [List.map_cons, List.map_nil, updateNodeCore] at hu
      by_cases hi : i < nodes.length
      · rw [dif_pos hi] at hu
        cases hu
        intro q m hm
        cases q with
        | nil => simp [getNode?] at hm
        | cons jq qrest =>
          by_cases hji : jq = i
          · subst hji
            have hnode : getNode? [jq] nodes = some nodes[jq] := by
              simp only [getNode?]
              rw [List.getElem?_eq_getElem hi]
            have hwa_i := hwa [jq] nodes[jq] hnode
            have hsub : wellAddressedFrom (pre ++ [jq]) nodes[jq].dependencies :=
              wellAddressedFrom_sub pre [jq] nodes nodes[jq] (by simp) hwa hnode
            obtain ⟨hfp, hfl, hfwf⟩ := hf nodes[jq] hwa_i.1 hwa_i.2 hsub
            cases qrest with
            | nil =>
              simp only [getNode?] at hm
              rw [List.getElem?_set_eq_of_lt _ hi] at hm
              cases hm
              exact ⟨by rw [hfp, hwa_i.1], by rw [hfl, hwa_i.2]⟩
            | cons b bs =>
              simp only [getNode?] at hm
              rw [List.getElem?_set_eq_of_lt _ hi] at hm
              dsimp only at hm
              have hres := hfwf (b :: bs) m hm
              refine ⟨?_, ?_⟩
              · rw [hres.1]
                simp
              · rw [hres.2]
                simp
          · have hget : (nodes.set i (f nodes[i]))[jq]? = nodes[jq]? :=
              List.getElem?_set_ne (fun he => hji he.symm)
            apply hwa
            cases qrest with
            | nil =>
              simp only [getNode?] at hm ⊢
              rw [← hget]
              exact hm
            | cons b bs =>
              simp only [getNode?] at hm ⊢
              rw [← hget]
              exact hm
      · rw [dif_neg hi] at hu
        cases hu
        exact hwa
    | cons k rest' =>
      simp only [List.map_cons, updateNodeCore] at hu
      by_cases hi : i < nodes.length
      · rw [dif_pos hi] at hu
        rcases hin : updateNodeCore f (some k :: rest'.map some) nodes[i].dependencies
          with _ | out'
        · rw [hin] at hu
          simp at hu
        · rw [hin] at hu
          dsimp only at hu
          cases hu
          have hnode : getNode? [i] nodes = some nodes[i] := by
            simp only [getNode?]
            rw [List.getElem?_eq_getElem hi]
          have hwa_i := hwa [i] nodes[i] hnode
          have hsub : wellAddressedFrom (pre ++ [i]) nodes[i].dependencies :=
            wellAddressedFrom_sub pre [i] nodes nodes[i] (by simp) hwa hnode
          have heq : (pre ++ [i]) ++ (k :: rest') = pre ++ (i :: k :: rest') := by simp
          have hwaout' : wellAddressedFrom (pre ++ [i]) out' := by
            apply ih (pre ++ [i]) nodes[i].dependencies out' ?_ hsub ?_
            · simp only [List.map_cons]
              exact hin
            · rw [heq]
              exact hf
          intro q m hm
          cases q with
          | nil => simp [getNode?] at hm
          | cons jq qrest =>
            by_cases hji : jq = i
            · subst hji
              cases qrest with
              | nil =>
                simp only [getNode?] at hm
                rw [List.getElem?_set_eq_of_lt _ hi] at hm
                cases hm
                exact ⟨by rw [withDependencies_path, hwa_i.1],
                  by rw [withDependencies_level, hwa_i.2]⟩
              | cons b bs =>
                simp only [getNode?] at hm
                rw [List.getElem?_set_eq_of_lt _ hi] at hm
                dsimp only at hm
                rw [withDependencies_dependencies] at hm
                have hres := hwaout' (b :: bs) m hm
                refine ⟨?_, ?_⟩
                · rw [hres.1]
                  simp
                · rw [hres.2]
                  simp
            · have hget : (nodes.set i (nodes[i].withDependencies out'))[jq]? = nodes[jq]? :=
                List.getElem?_set_ne (fun he => hji he.symm)
              apply hwa
              cases qrest with
              | nil =>
                simp only [getNode?] at hm ⊢
                rw [← hget]
                exact hm
              | cons b bs =>
                simp only [getNode?] at hm ⊢
                rw [← hget]
                exact hm
      · rw [dif_neg hi] at hu
        simp at hu

/-- Every App callback update preserves well-addressing: the updaters
keep the target's path and level, and discovery installs children
whose paths extend the parent's path by a dash and the child index and
whose level is the parent's plus one. -/
theorem applyOp_preserves (tree : List DependencyNode) (op : TreeOp)
    (hop : op.pos ≠ []) (hwa : wellAddressed tree) :
    wellAddressed (applyOp tree op) := by
  have key : ∀ (q : List ℕ) (u : DependencyNode → DependencyNode), q ≠ [] →
      (∀ n : DependencyNode,
        n.path = renderPath q → n.level = q.length - 1 →
        wellAddressedFrom q n.dependencies →
        (u n).path = n.path ∧ (u n).level = n.level ∧
          wellAddressedFrom q (u n).dependencies) →
      wellAddressed ((updateNodeByPath tree (renderPath q) u).getD tree) := by
    intro q u hq hu
    rcases hres : updateNodeByPath tree (renderPath q) u with _ | out
    · simpa using hwa
    · simp only [Option.getD_some]
      unfold updateNodeByPath at hres
      rw [parse_renderPath q hq] at hres
      exact updateNodeCore_preserves u q [] tree out hres hwa (by simpa using hu)
  cases op with
  | toggleExpand q =>
    exact key q _ hop (fun n _ _ h3 =>
      ⟨(toggleExpandUpdater_fields n).1, (toggleExpandUpdater_fields n).2.1,
        by rw [(toggleExpandUpdater_fields n).2.2]; exact h3⟩)
  | startDiscover q =>
    exact key q _ hop (fun n _ _ h3 =>
      ⟨(setFlagsUpdater_fields true (some true) n).1,
        (setFlagsUpdater_fields true (some true) n).2.1,
        by rw [(setFlagsUpdater_fields true (some true) n).2.2]; exact h3⟩)
  | finishDiscover q deps =>
    exact key q _ hop (fun n _ _ _ =>
      ⟨(discoverFinishUpdater_fields _ n).1, (discoverFinishUpdater_fields _ n).2.1,
        by rw [(discoverFinishUpdater_fields _ n).2.2]
           exact mkChildren_wellAddressed q hop deps⟩)
  | startAnalyze q =>
    exact key q _ hop (fun n _ _ h3 =>
      ⟨(setFlagsUpdater_fields true none n).1, (setFlagsUpdater_fields true none n).2.1,
        by rw [(setFlagsUpdater_fields true none n).2.2]; exact h3⟩)
  | finishAnalyze q a =>
    exact key q _ hop (fun n _ _ h3 =>
      ⟨(analyzeFinishUpdater_fields a n).1, (analyzeFinishUpdater_fields a n).2.1,
        by rw [(analyzeFinishUpdater_fields a n).2.2]; exact h3⟩)
  | failOp q =>
    exact key q _ hop (fun n _ _ h3 =>
      ⟨(setFlagsUpdater_fields false none n).1, (setFlagsUpdater_fields false none n).2.1,
        by rw [(setFlagsUpdater_fields false none n).2.2]; exact h3⟩)

/-- The tree built by the initial discovery is well addressed: the
root carries path 0 and level 0, its children path 0-i and level 1. -/
theorem initialTree_wellAddressed (repoName repoUrl : JSString)
    (deps : List DiscoveredDependency) :
    wellAddressed (initialTree repoName repoUrl deps) := by
  intro q m hm
  cases q with
  | nil => simp [getNode?] at hm
  | cons j qrest =>
    cases j with
    | succ j' =>
      cases qrest with
      | nil => simp [initialTree, getNode?] at hm
      | cons b bs => simp [initialTree, getNode?] at hm
    | zero =>
      cases qrest with
      | nil =>
        simp only [getNode?, initialTree, List.getElem?_cons_zero] at hm
        cases hm
        exact ⟨rfl, rfl⟩
      | cons b bs =>
        simp only [getNode?, initialTree, List.getElem?_cons_zero] at hm
        simp only [DependencyNode.dependencies] at hm
        have hwf : wellAddressedFrom [0] (mkChildren (natDigits 0) 0 0 deps) :=
          mkChildren_wellAddressed [0] (by simp) deps
        have hres := hwf (b :: bs) m hm
        refine ⟨?_, ?_⟩
        · rw [hres.1]
          simp
        · rw [hres.2]
          simp

/-- C8: every child is constructed with path equal to the parent's
path, a dash, and the child index, and level equal to the parent's
plus one (the root having path 0 and level 0); after any sequence of
callback updates (toggle, analyze, discover) at non-root positions,
every node of the tree still carries the path and level derived from
its position -- construction-time values are never changed by
updates. -/
theorem applyOps_stable_addressing (repoName repoUrl : JSString)
    (deps : List DiscoveredDependency) (ops : List TreeOp)
    (hops : ∀ op ∈ ops, op.pos ≠ []) :
    wellAddressed (applyOps (initialTree repoName repoUrl deps) ops) := by
  have haux : ∀ (os : List TreeOp) (t : List DependencyNode),
      (∀ op ∈ os, op.pos ≠ []) → wellAddressed t → wellAddressed (applyOps t os) := by
    intro os
    induction os with
    | nil => intro t _ h; exact h
    | cons op rest ih =>
      intro t hall hwa
      exact ih (applyOp t op) (fun o ho => hall o (List.mem_cons_of_mem _ ho))
        (applyOp_preserves t op (hall op (List.mem_cons_self _ _)) hwa)
  exact haux ops _ hops (initialTree_wellAddressed repoName repoUrl deps)

/-- C8 witness: a concrete session -- initial discovery of one
dependency, then expanding it and discovering a child, then toggling
the root -- leaves every node well addressed. -/
theorem applyOps_stable_addressing_witness :
    wellAddressed (applyOps
      (initialTree "m5stack/M5StampLC".toList "https://github.com/x".toList
        [⟨"LibA".toList, "ua".toList, "Build Manifest".toList⟩])
      [TreeOp.startDiscover [0, 0],
       TreeOp.finishDiscover [0, 0] [⟨"LibB".toList, "ub".toList, "Source Code Scan".toList⟩],
       TreeOp.toggleExpand [0]]) :=
  applyOps_stable_addressing "m5stack/M5StampLC".toList "https://github.com/x".toList
    [⟨"LibA".toList, "ua".toList, "Build Manifest".toList⟩]
    [TreeOp.startDiscover [0, 0],
     TreeOp.finishDiscover [0, 0] [⟨"LibB".toList, "ub".toList, "Source Code Scan".toList⟩],
     TreeOp.toggleExpand [0]]
    (by intro op hop; fin_cases hop <;> simp [TreeOp.pos])
